import Mathlib

/-!
Shallow embedding of the translation post-processing pipeline of the
Japanese→Korean translator service (files `app/api.py` and `app/main.py`).

Python strings are modelled as `List Char` (Unicode scalar values).
Each stage of `clean_translation` is embedded as its own Lean function,
in the exact order of the source; the two near-duplicate variants
(`api.py`, richer, with the duplicate-halves collapse; `main.py`, without)
are `clean_translation` and `clean_translation_main`.

The HTTP layer is abstracted: the backend's observable reply is either a
transport-level failure (`requests.RequestException`: connection error,
timeout, or non-2xx via `raise_for_status`) or a parsed 2xx JSON body whose
`"response"` field is absent (`none`) or a string.  `HTTPException` status
codes are kept; the human-readable `detail` strings are observability only
and are not modelled.
-/

namespace TranslateLLM

/-- Python's whitespace (`str.isspace`, `str.split()`, `str.strip()`, and
`\s` in `re` for `str` patterns all use this set): the Unicode code points
CPython's `Py_UNICODE_ISSPACE` accepts. -/
def pySpace (c : Char) : Bool :=
  decide (c.toNat = 0x20 ∨ (0x09 ≤ c.toNat ∧ c.toNat ≤ 0x0D) ∨
    (0x1C ≤ c.toNat ∧ c.toNat ≤ 0x1F) ∨ c.toNat = 0x85 ∨ c.toNat = 0xA0 ∨
    c.toNat = 0x1680 ∨ (0x2000 ≤ c.toNat ∧ c.toNat ≤ 0x200A) ∨
    c.toNat = 0x2028 ∨ c.toNat = 0x2029 ∨ c.toNat = 0x202F ∨
    c.toNat = 0x205F ∨ c.toNat = 0x3000)

/-- `[a-zA-Z]` of `re.sub(r'[a-zA-Z]', '', text)` (api.py line 78). -/
def isLatin (c : Char) : Bool :=
  decide ((0x41 ≤ c.toNat ∧ c.toNat ≤ 0x5A) ∨ (0x61 ≤ c.toNat ∧ c.toNat ≤ 0x7A))

/-- `[\U0001F300-\U0001F9FF]` of the emoji removal (api.py line 79). -/
def isEmoji (c : Char) : Bool :=
  decide (0x1F300 ≤ c.toNat ∧ c.toNat ≤ 0x1F9FF)

/-- `[가-힣]`: the Hangul syllable block U+AC00–U+D7A3 used by the final
whitelist `re.sub(r'[^가-힣\s]', '', text)` (api.py line 82). -/
def isHangul (c : Char) : Bool :=
  decide (0xAC00 ≤ c.toNat ∧ c.toNat ≤ 0xD7A3)

/-- The translation label `'한국어:'` (api.py line 61). -/
def LABEL : List Char := ['한', '국', '어', ':']

/-- Python's substring test `sep in text`: some occurrence of `sep` starts
at some position of the text. -/
def occurs (sep : List Char) : List Char → Bool
  | [] => sep.isEmpty
  | c :: rest => sep.isPrefixOf (c :: rest) || occurs sep rest

/-- Python's `text.split(sep)` for a separator: cut at each left-to-right
non-overlapping occurrence of `sep`, keeping empty pieces. -/
def pySplit (sep : List Char) : List Char → List (List Char)
  | [] => [[]]
  | c :: rest =>
    if sep.isPrefixOf (c :: rest) then
      [] :: pySplit sep (rest.drop (sep.length - 1))
    else
      match pySplit sep rest with
      | [] => [[c]]
      | p :: ps => (c :: p) :: ps
termination_by l => l.length
decreasing_by
  · simp only [List.length_drop, List.length_cons]; omega
  · simp only [List.length_cons]; omega

/-- Python's `text.split(sep)[-1]`. -/
def pySplitLast (sep l : List Char) : List Char :=
  (pySplit sep l).getLastD []

/-- The substring strictly after the last occurrence of `sep` (the whole
text when `sep` does not occur).  This is the spec's wording of the label
rule ("discard everything before and including its last occurrence"); it is
related to the source's `split(sep)[-1]` by `pySplitLast_eq_afterLast`. -/
def afterLast (sep : List Char) : List Char → List Char
  | [] => []
  | c :: rest =>
    if occurs sep rest then afterLast sep rest
    else if sep.isPrefixOf (c :: rest) then (c :: rest).drop sep.length
    else c :: rest

/-- Python's `text.strip()`: drop `pySpace` characters from both ends. -/
def pyStrip (l : List Char) : List Char :=
  (l.dropWhile pySpace).rdropWhile pySpace

/-- Python's `text.split()` (no argument): whitespace-delimited tokens,
with no empty tokens. -/
def pyWords : List Char → List (List Char)
  | [] => []
  | c :: rest =>
    if pySpace c then pyWords rest
    else
      match rest with
      | [] => [[c]]
      | d :: _ =>
        if pySpace d then [c] :: pyWords rest
        else
          match pyWords rest with
          | [] => [[c]]
          | w :: ws => (c :: w) :: ws

/-- `re.sub(r'\s+', ' ', text)`: each maximal run of whitespace becomes a
single `' '`.  The flag records whether we are inside a run. -/
def collapseSpacesAux : Bool → List Char → List Char
  | _, [] => []
  | inRun, c :: rest =>
    if pySpace c then
      if inRun then collapseSpacesAux true rest
      else ' ' :: collapseSpacesAux true rest
    else c :: collapseSpacesAux false rest

def collapseSpaces (l : List Char) : List Char :=
  collapseSpacesAux false l

/-- `re.sub(r'\([^)]*\)', '', text)`: scanning left to right, a `'('` that
has some `')'` ahead starts a match reaching up to (and including) the
first such `')'`; the match is deleted and scanning resumes after it.  The
flag records whether we are inside a match being deleted. -/
def removeParensAux : Bool → List Char → List Char
  | _, [] => []
  | true, c :: rest =>
    if c = ')' then removeParensAux false rest
    else removeParensAux true rest
  | false, c :: rest =>
    if c = '(' && rest.any (fun d => d == ')') then removeParensAux true rest
    else c :: removeParensAux false rest

def removeParens (l : List Char) : List Char :=
  removeParensAux false l

/-- api.py lines 61–62: if the label occurs, keep `text.split('한국어:')[-1]`. -/
def labelStage (l : List Char) : List Char :=
  if occurs LABEL l then pySplitLast LABEL l else l

/-- api.py line 65: `text.split('\n')[0].strip()`. -/
def firstLineStage (l : List Char) : List Char :=
  pyStrip (l.takeWhile (fun c => c != '\n'))

/-- api.py lines 67–72: `words = text.split()`; if `len(words) > 1` and
`words[:half] == words[half:]` (with `half = len(words) // 2`), replace the
text by `' '.join(words[:half])`. -/
def dupHalvesStage (l : List Char) : List Char :=
  if 1 < (pyWords l).length then
    if (pyWords l).take ((pyWords l).length / 2) = (pyWords l).drop ((pyWords l).length / 2) then
      List.intercalate [' '] ((pyWords l).take ((pyWords l).length / 2))
    else l
  else l

/-- api.py line 78: `re.sub(r'[a-zA-Z]', '', text)`. -/
def stripLatin (l : List Char) : List Char :=
  l.filter (fun c => !isLatin c)

/-- api.py line 79: `re.sub(r'[\U0001F300-\U0001F9FF]', '', text)`. -/
def stripEmoji (l : List Char) : List Char :=
  l.filter (fun c => !isEmoji c)

/-- api.py line 82: `re.sub(r'[^가-힣\s]', '', text)`. -/
def whitelistStage (l : List Char) : List Char :=
  l.filter (fun c => isHangul c || pySpace c)

/-- `clean_translation` of api.py (lines 50–87), the richer variant:
label split, first line + strip, duplicate-halves collapse, parenthetical
removal, Latin removal, emoji removal, Hangul/whitespace whitelist,
whitespace collapse, final strip. -/
def clean_translation (l : List Char) : List Char :=
  pyStrip (collapseSpaces (whitelistStage (stripEmoji (stripLatin
    (removeParens (dupHalvesStage (firstLineStage (labelStage l))))))))

/-- `clean_translation` of main.py (lines 35–59): identical pipeline except
that the duplicate-halves stage is absent. -/
def clean_translation_main (l : List Char) : List Char :=
  pyStrip (collapseSpaces (whitelistStage (stripEmoji (stripLatin
    (removeParens (firstLineStage (labelStage l)))))))

/-- `DEFAULT_MODEL = "gemma2:9b"` (api.py line 32). -/
def DEFAULT_MODEL : List Char := String.data "gemma2:9b"

/-- `TranslationRequest` (api.py lines 40–43): `japanese_text: str`,
`model: Optional[str] = DEFAULT_MODEL`.  `model = none` is Python's `None`. -/
structure TranslationRequest where
  japanese_text : List Char
  model : Option (List Char)

/-- How pydantic fills the `model` field from the inbound JSON: absent →
the declared default `DEFAULT_MODEL`; explicit `null` → `None` (valid for
`Optional[str]`); a string → itself. -/
inductive ModelField where
  | absent
  | null
  | given (s : List Char)

def parseModel : ModelField → Option (List Char)
  | .absent => some DEFAULT_MODEL
  | .null => none
  | .given s => some s

/-- The backend's observable reply to the one outbound HTTP call:
either a `requests.RequestException` (connection failure, timeout, or
non-2xx status raised by `raise_for_status`), or a 2xx reply whose parsed
JSON `"response"` field is absent (`none`) or the string `r`. -/
inductive BackendReply where
  | transportError
  | http2xx (response : Option (List Char))

/-- The outcome of the `/translate` operation: a `TranslationResponse`
body, or an `HTTPException` with its status code (detail strings are
observability only and not modelled). -/
inductive TranslateOutcome where
  | success (korean_text : List Char) (model_used : List Char)
  | failure (statusCode : Nat)

/-- `call_ollama_api` of api.py (lines 103–129): a `RequestException`
becomes HTTP 500; on a parsed 2xx body, `if not result.get("response")`
(absent or empty string) raises HTTP 500, otherwise
`result.get("response", "").strip()` is returned. -/
def call_ollama_api : BackendReply → Except Nat (List Char)
  | .transportError => .error 500
  | .http2xx none => .error 500
  | .http2xx (some r) => if r = [] then .error 500 else .ok (pyStrip r)

/-- `translate` of api.py (lines 131–184).  Every raise inside the `try`
(the invoker's `HTTPException`, the empty-result `HTTPException`, and the
pydantic `ValidationError` when `model_used=None` fails `str` validation)
is caught by the blanket `except Exception` and re-raised as HTTP 500. -/
def translate (req : TranslationRequest) (reply : BackendReply) : TranslateOutcome :=
  match call_ollama_api reply with
  | .error _ => .failure 500
  | .ok translated_text =>
    let cleaned_text := clean_translation translated_text
    if cleaned_text = [] then .failure 500
    else
      match req.model with
      | some m => .success cleaned_text m
      | none => .failure 500

/-! ### Character-class facts -/

theorem ne_of_toNat_ne {c d : Char} (h : c.toNat ≠ d.toNat) : c ≠ d :=
  fun e => h (by rw [e])

theorem isHangul_not_pySpace {c : Char} (h : isHangul c = true) : pySpace c = false := by
  simp only [isHangul, decide_eq_true_eq] at h
  simp only [pySpace, decide_eq_false_iff_not]
  omega

/-- Every fact about a character that is a Hangul syllable or `' '` that the
id-on-sanitized-output lemmas need. -/
theorem hangulOrSpace_props {c : Char} (h : isHangul c = true ∨ c = ' ') :
    isLatin c = false ∧ isEmoji c = false ∧ (isHangul c || pySpace c) = true ∧
    c ≠ '\n' ∧ c ≠ '(' ∧ (pySpace c = true → c = ' ') := by
  rcases h with h | h
  · have hb := h
    simp only [isHangul, decide_eq_true_eq] at hb
    refine ⟨?_, ?_, by simp [h], ?_, ?_, ?_⟩
    · simp only [isLatin, decide_eq_false_iff_not]; omega
    · simp only [isEmoji, decide_eq_false_iff_not]; omega
    · refine ne_of_toNat_ne ?_
      have h1 : ('\n').toNat = 10 := rfl
      omega
    · refine ne_of_toNat_ne ?_
      have h1 : ('(').toNat = 40 := rfl
      omega
    · intro hp
      rw [isHangul_not_pySpace h] at hp
      cases hp
  · subst h
    exact ⟨by decide, by decide, by decide, by decide, by decide, fun _ => rfl⟩

/-! ### The whitespace-collapse stage -/

theorem mem_collapseSpacesAux {c : Char} : ∀ {l : List Char} {b : Bool},
    c ∈ collapseSpacesAux b l → c = ' ' ∨ (c ∈ l ∧ pySpace c = false) := by
  intro l
  induction l with
  | nil => intro b h; simp [collapseSpacesAux] at h
  | cons d rest ih =>
    intro b h
    cases hd : pySpace d
    · have e : collapseSpacesAux b (d :: rest) = d :: collapseSpacesAux false rest := by
        cases b <;> simp [collapseSpacesAux, hd]
      rw [e, List.mem_cons] at h
      rcases h with h | h
      · exact Or.inr ⟨by simp [h], by rw [h]; exact hd⟩
      · rcases ih h with h' | ⟨h1, h2⟩
        · exact Or.inl h'
        · exact Or.inr ⟨List.mem_cons_of_mem _ h1, h2⟩
    · cases b
      · have e : collapseSpacesAux false (d :: rest) = ' ' :: collapseSpacesAux true rest := by
          simp [collapseSpacesAux, hd]
        rw [e, List.mem_cons] at h
        rcases h with h | h
        · exact Or.inl h
        · rcases ih h with h' | ⟨h1, h2⟩
          · exact Or.inl h'
          · exact Or.inr ⟨List.mem_cons_of_mem _ h1, h2⟩
      · have e : collapseSpacesAux true (d :: rest) = collapseSpacesAux true rest := by
          simp [collapseSpacesAux, hd]
        rw [e] at h
        rcases ih h with h' | ⟨h1, h2⟩
        · exact Or.inl h'
        · exact Or.inr ⟨List.mem_cons_of_mem _ h1, h2⟩

theorem head?_collapseSpacesAux_true : ∀ (l : List Char) {c : Char},
    (collapseSpacesAux true l).head? = some c → pySpace c = false := by
  intro l
  induction l with
  | nil => intro c h; simp [collapseSpacesAux] at h
  | cons d rest ih =>
    intro c h
    cases hd : pySpace d
    · have e : collapseSpacesAux true (d :: rest) = d :: collapseSpacesAux false rest := by
        simp [collapseSpacesAux, hd]
      rw [e] at h
      simp only [List.head?_cons, Option.some.injEq] at h
      rw [← h]; exact hd
    · have e : collapseSpacesAux true (d :: rest) = collapseSpacesAux true rest := by
        simp [collapseSpacesAux, hd]
      rw [e] at h
      exact ih h

theorem chain'_collapseSpacesAux : ∀ (l : List Char) (b : Bool),
    (collapseSpacesAux b l).Chain' (fun a b => pySpace a = true → pySpace b = false) := by
  intro l
  induction l with
  | nil => intro b; simp [collapseSpacesAux]
  | cons d rest ih =>
    intro b
    cases hd : pySpace d
    · have e : collapseSpacesAux b (d :: rest) = d :: collapseSpacesAux false rest := by
        cases b <;> simp [collapseSpacesAux, hd]
      rw [e, List.chain'_cons']
      exact ⟨fun y _ hp => absurd hp (by simp [hd]), ih false⟩
    · cases b
      · have e : collapseSpacesAux false (d :: rest) = ' ' :: collapseSpacesAux true rest := by
          simp [collapseSpacesAux, hd]
        rw [e, List.chain'_cons']
        refine ⟨fun y hy _ => ?_, ih true⟩
        exact head?_collapseSpacesAux_true rest (Option.mem_def.mp hy)
      · have e : collapseSpacesAux true (d :: rest) = collapseSpacesAux true rest := by
          simp [collapseSpacesAux, hd]
        rw [e]; exact ih true

/-! ### The final strip -/

theorem pyStrip_prefix_dropWhile (l : List Char) :
    pyStrip l <+: l.dropWhile pySpace :=
  List.rdropWhile_prefix pySpace (l.dropWhile pySpace)

theorem pyStrip_infix_self (l : List Char) : pyStrip l <:+: l := by
  rcases pyStrip_prefix_dropWhile l with ⟨t, ht⟩
  rcases List.dropWhile_suffix (l := l) pySpace with ⟨s, hs⟩
  exact ⟨s, t, by rw [List.append_assoc, ht, hs]⟩

theorem head?_pyStrip {l : List Char} {c : Char} (h : (pyStrip l).head? = some c) :
    pySpace c = false := by
  rcases List.head?_eq_some_iff.mp h with ⟨ys, hys⟩
  rcases pyStrip_prefix_dropWhile l with ⟨t, ht⟩
  have hdw : l.dropWhile pySpace = c :: (ys ++ t) := by
    rw [← ht, hys]; simp
  have hne : l.dropWhile pySpace ≠ [] := by rw [hdw]; simp
  have := List.head_dropWhile_not pySpace l hne
  rwa [show (l.dropWhile pySpace).head hne = c from by
    rw [List.head_eq_iff_head?_eq_some hne, hdw]; simp] at this

theorem head?_dropWhile_false {p : Char → Bool} {l : List Char} {c : Char}
    (h : (l.dropWhile p).head? = some c) : p c = false := by
  have h2 := List.head?_dropWhile_not p l
  rw [h] at h2
  exact h2

theorem getLast?_pyStrip {l : List Char} {c : Char}
    (h : (pyStrip l).getLast? = some c) : pySpace c = false := by
  have e : pyStrip l = ((l.dropWhile pySpace).reverse.dropWhile pySpace).reverse := rfl
  rw [e, List.getLast?_reverse] at h
  exact head?_dropWhile_false h

theorem pyStrip_eq_nil_of_all {l : List Char} (h : ∀ c ∈ l, pySpace c = true) :
    pyStrip l = [] := by
  unfold pyStrip
  rw [List.dropWhile_eq_nil_iff.mpr h]
  simp

/-! ### The sanitizer's output invariant -/

/-- The invariant the spec states for `TranslationResult.cleanedText`: only
Hangul-syllable characters and single interior spaces, with no leading or
trailing whitespace (the empty list satisfies it vacuously). -/
def sanitized (l : List Char) : Prop :=
  (∀ c ∈ l, isHangul c = true ∨ c = ' ') ∧
  l.Chain' (fun a b => a = ' ' → b ≠ ' ') ∧
  (∀ c, l.head? = some c → c ≠ ' ') ∧
  (∀ c, l.getLast? = some c → c ≠ ' ')

/-- The last two stages establish the invariant from the whitelist's
guarantee alone. -/
theorem sanitized_strip_collapse {x : List Char}
    (hx : ∀ c ∈ x, (isHangul c || pySpace c) = true) :
    sanitized (pyStrip (collapseSpaces x)) := by
  have hmem : ∀ c ∈ pyStrip (collapseSpaces x), isHangul c = true ∨ c = ' ' := by
    intro c hc
    have hc' : c ∈ collapseSpaces x := (pyStrip_infix_self _).mem hc
    rcases mem_collapseSpacesAux hc' with h | ⟨h1, h2⟩
    · exact Or.inr h
    · rcases Bool.or_eq_true_iff.mp (hx c h1) with h | h
      · exact Or.inl h
      · rw [h2] at h; cases h
  refine ⟨hmem, ?_, ?_, ?_⟩
  · have hch := chain'_collapseSpacesAux x false
    have := hch.infix (pyStrip_infix_self (collapseSpaces x))
    refine this.imp (fun a b hab ha => ?_)
    intro hb
    have hpa : pySpace a = true := by rw [ha]; decide
    have hpb := hab hpa
    rw [hb] at hpb
    exact absurd hpb (by decide)
  · intro c hc
    have := head?_pyStrip hc
    intro e; rw [e] at this
    exact absurd this (by decide)
  · intro c hc
    have := getLast?_pyStrip hc
    intro e; rw [e] at this
    exact absurd this (by decide)

/-- Both variants end with whitelist → collapse → strip, so every output of
either `clean_translation` satisfies the invariant. -/
theorem sanitized_clean (s : List Char) : sanitized (clean_translation s) := by
  unfold clean_translation
  exact sanitized_strip_collapse (fun c hc => (List.mem_filter.mp hc).2)

theorem sanitized_clean_main (s : List Char) :
    sanitized (clean_translation_main s) := by
  unfold clean_translation_main
  exact sanitized_strip_collapse (fun c hc => (List.mem_filter.mp hc).2)

/-! ### Occurrence of a separator -/

theorem occurs_iff_exists_drop {sep l : List Char} :
    occurs sep l = true ↔ ∃ k, sep.isPrefixOf (l.drop k) = true := by
  induction l with
  | nil =>
    cases sep with
    | nil => simp [occurs, List.isPrefixOf]
    | cons a as => simp [occurs, List.isPrefixOf, List.isEmpty]
  | cons c rest ih =>
    have hocc : occurs sep (c :: rest) = (sep.isPrefixOf (c :: rest) || occurs sep rest) :=
      rfl
    constructor
    · intro h
      rw [hocc] at h
      rcases Bool.or_eq_true_iff.mp h with h | h
      · exact ⟨0, by simpa using h⟩
      · rcases ih.mp h with ⟨k, hk⟩
        exact ⟨k + 1, by simpa using hk⟩
    · rintro ⟨k, hk⟩
      rw [hocc]
      cases k with
      | zero =>
        simp only [List.drop_zero] at hk
        exact Bool.or_eq_true_iff.mpr (Or.inl hk)
      | succ k =>
        simp only [List.drop_succ_cons] at hk
        exact Bool.or_eq_true_iff.mpr (Or.inr (ih.mpr ⟨k, hk⟩))

theorem mem_of_occurs {sep l : List Char} (h : occurs sep l = true) {c : Char}
    (hc : c ∈ sep) : c ∈ l := by
  rcases occurs_iff_exists_drop.mp h with ⟨k, hk⟩
  rcases List.isPrefixOf_iff_prefix.mp hk with ⟨t, ht⟩
  refine List.mem_of_mem_drop (n := k) ?_
  rw [← ht]
  exact List.mem_append_left t hc

/-! ### Each stage is the identity on sanitized text -/

theorem occurs_label_sanitized {l : List Char} (hs : sanitized l) :
    occurs LABEL l = false := by
  cases hoc : occurs LABEL l with
  | false => rfl
  | true =>
    exfalso
    have hcolon : (':' : Char) ∈ l := mem_of_occurs hoc (by decide)
    rcases hs.1 ':' hcolon with h | h
    · exact absurd h (by decide)
    · exact absurd h (by decide)

theorem labelStage_sanitized {l : List Char} (hs : sanitized l) :
    labelStage l = l := by
  unfold labelStage
  rw [occurs_label_sanitized hs]
  rfl

theorem pyStrip_sanitized {l : List Char} (hs : sanitized l) : pyStrip l = l := by
  cases l with
  | nil => rfl
  | cons c rest =>
    have hcs : c ≠ ' ' := hs.2.2.1 c rfl
    have hH : isHangul c = true := by
      rcases hs.1 c (List.mem_cons_self c rest) with h | h
      · exact h
      · exact absurd h hcs
    have hps : pySpace c = false := isHangul_not_pySpace hH
    have h1 : (c :: rest).dropWhile pySpace = c :: rest := by
      simp [List.dropWhile_cons, hps]
    unfold pyStrip
    rw [h1, List.rdropWhile_eq_self_iff]
    intro hl
    have hlast := List.getLast?_eq_getLast (c :: rest) hl
    have hlns : (c :: rest).getLast hl ≠ ' ' := hs.2.2.2 _ hlast
    have hlmem : (c :: rest).getLast hl ∈ c :: rest := List.getLast_mem hl
    have hlH : isHangul ((c :: rest).getLast hl) = true := by
      rcases hs.1 _ hlmem with h | h
      · exact h
      · exact absurd h hlns
    simp [isHangul_not_pySpace hlH]

theorem firstLineStage_sanitized {l : List Char} (hs : sanitized l) :
    firstLineStage l = l := by
  unfold firstLineStage
  have h1 : l.takeWhile (fun c => c != '\n') = l := by
    rw [List.takeWhile_eq_self_iff]
    intro c hc
    have hne := (hangulOrSpace_props (hs.1 c hc)).2.2.2.1
    simpa [bne_iff_ne] using hne
  rw [h1, pyStrip_sanitized hs]

theorem removeParensAux_false_id {l : List Char} (h : ∀ c ∈ l, c ≠ '(') :
    removeParensAux false l = l := by
  induction l with
  | nil => rfl
  | cons c rest ih =>
    have hc : c ≠ '(' := h c (List.mem_cons_self _ _)
    have e : removeParensAux false (c :: rest) = c :: removeParensAux false rest := by
      simp [removeParensAux, hc]
    rw [e, ih (fun d hd => h d (List.mem_cons_of_mem _ hd))]

theorem collapseSpacesAux_id {l : List Char}
    (hmem : ∀ c ∈ l, isHangul c = true ∨ c = ' ')
    (hch : l.Chain' (fun a b => a = ' ' → b ≠ ' ')) :
    collapseSpacesAux false l = l ∧
      ((∀ c, l.head? = some c → pySpace c = false) → collapseSpacesAux true l = l) := by
  induction l with
  | nil => exact ⟨rfl, fun _ => rfl⟩
  | cons c rest ih =>
    have hmem' : ∀ d ∈ rest, isHangul d = true ∨ d = ' ' :=
      fun d hd => hmem d (List.mem_cons_of_mem _ hd)
    obtain ⟨ih1, ih2⟩ := ih hmem' hch.tail
    cases hpc : pySpace c
    · have e1 : collapseSpacesAux false (c :: rest) = c :: collapseSpacesAux false rest := by
        simp [collapseSpacesAux, hpc]
      have e2 : collapseSpacesAux true (c :: rest) = c :: collapseSpacesAux false rest := by
        simp [collapseSpacesAux, hpc]
      exact ⟨by rw [e1, ih1], fun _ => by rw [e2, ih1]⟩
    · have hc' : c = ' ' := by
        rcases hmem c (List.mem_cons_self _ _) with h | h
        · rw [isHangul_not_pySpace h] at hpc; cases hpc
        · exact h
      constructor
      · have e : collapseSpacesAux false (c :: rest) = ' ' :: collapseSpacesAux true rest := by
          simp [collapseSpacesAux, hpc]
        rw [e, ← hc']
        congr 1
        apply ih2
        intro d hd
        have hdne : d ≠ ' ' := (List.chain'_cons'.mp hch).1 d hd hc'
        have hdH : isHangul d = true := by
          rcases List.head?_eq_some_iff.mp hd with ⟨ys, hys⟩
          rcases hmem' d (by rw [hys]; exact List.mem_cons_self _ _) with h | h
          · exact h
          · exact absurd h hdne
        exact isHangul_not_pySpace hdH
      · intro hhead
        have := hhead c rfl
        rw [hpc] at this
        cases this

theorem collapseSpaces_sanitized {l : List Char} (hs : sanitized l) :
    collapseSpaces l = l :=
  (collapseSpacesAux_id hs.1 hs.2.1).1

/-! ### The duplicate-halves stage -/

/-- The condition under which the duplicate-halves collapse fires: more
than one whitespace-delimited token, and the first half of the token list
equals the second half. -/
def dupFires (l : List Char) : Prop :=
  1 < (pyWords l).length ∧
    (pyWords l).take ((pyWords l).length / 2) = (pyWords l).drop ((pyWords l).length / 2)

instance (l : List Char) : Decidable (dupFires l) := by
  unfold dupFires
  infer_instance

theorem dupHalvesStage_eq_of_not_fires {l : List Char} (h : ¬ dupFires l) :
    dupHalvesStage l = l := by
  unfold dupHalvesStage
  by_cases h1 : 1 < (pyWords l).length
  · rw [if_pos h1, if_neg (fun h2 => h ⟨h1, h2⟩)]
  · rw [if_neg h1]

/-- The full pipeline is the identity on sanitized text on which the
duplicate-halves collapse does not fire. -/
theorem clean_translation_sanitized_fix {l : List Char} (hs : sanitized l)
    (h : ¬ dupFires l) : clean_translation l = l := by
  have hprops := fun c (hc : c ∈ l) => hangulOrSpace_props (hs.1 c hc)
  unfold clean_translation
  rw [labelStage_sanitized hs, firstLineStage_sanitized hs,
    dupHalvesStage_eq_of_not_fires h]
  unfold removeParens
  rw [removeParensAux_false_id (fun c hc => (hprops c hc).2.2.2.2.1)]
  unfold stripLatin
  rw [List.filter_eq_self.mpr (fun c hc => by simp [(hprops c hc).1])]
  unfold stripEmoji
  rw [List.filter_eq_self.mpr (fun c hc => by simp [(hprops c hc).2.1])]
  unfold whitelistStage
  rw [List.filter_eq_self.mpr (fun c hc => (hprops c hc).2.2.1)]
  rw [collapseSpaces_sanitized hs, pyStrip_sanitized hs]

/-! ### Tokenization facts -/

/-- The one-step unfolding of `pyWords` on a cons cell. -/
theorem pyWords_cons (c : Char) (rest : List Char) :
    pyWords (c :: rest) =
      if pySpace c then pyWords rest
      else
        match rest with
        | [] => [[c]]
        | d :: _ =>
          if pySpace d then [c] :: pyWords rest
          else
            match pyWords rest with
            | [] => [[c]]
            | w :: ws => (c :: w) :: ws := by
  rw [pyWords.eq_def]

theorem pyWords_singleton (c : Char) (hc : pySpace c = false) :
    pyWords [c] = [[c]] := by
  rw [pyWords_cons, if_neg (by rw [hc]; exact Bool.false_ne_true)]

theorem pyWords_cons_cons (c d : Char) (rest' : List Char) (hc : pySpace c = false) :
    pyWords (c :: d :: rest') =
      if pySpace d then [c] :: pyWords (d :: rest')
      else
        match pyWords (d :: rest') with
        | [] => [[c]]
        | w :: ws => (c :: w) :: ws := by
  rw [pyWords_cons, if_neg (by rw [hc]; exact Bool.false_ne_true)]

theorem pyWords_eq_nil_iff {l : List Char} :
    pyWords l = [] ↔ ∀ c ∈ l, pySpace c = true := by
  induction l with
  | nil => simp [pyWords]
  | cons c rest ih =>
    cases hpc : pySpace c
    · constructor
      · intro h
        exfalso
        cases rest with
        | nil =>
          rw [pyWords_singleton c hpc] at h
          exact List.cons_ne_nil _ _ h
        | cons d rest' =>
          rw [pyWords_cons_cons c d rest' hpc] at h
          cases hpd : pySpace d
          · rw [if_neg (by rw [hpd]; exact Bool.false_ne_true)] at h
            rcases hw : pyWords (d :: rest') with _ | ⟨w, ws⟩
            · rw [hw] at h
              simp at h
            · rw [hw] at h
              simp at h
          · rw [if_pos hpd] at h
            exact List.cons_ne_nil _ _ h
      · intro hall
        have := hall c (List.mem_cons_self _ _)
        rw [hpc] at this
        cases this
    · rw [pyWords_cons, if_pos hpc, ih]
      constructor
      · intro hall d hd
        rcases List.mem_cons.mp hd with h | h
        · rw [h]; exact hpc
        · exact hall d h
      · intro hall d hd
        exact hall d (List.mem_cons_of_mem _ hd)

theorem eq_nil_of_stripped_all_space {t : List Char} (hstrip : pyStrip t = t)
    (hw : pyWords t = []) : t = [] := by
  have := pyStrip_eq_nil_of_all (pyWords_eq_nil_iff.mp hw)
  rw [hstrip] at this
  exact this

/-! ### `split(sep)[-1]` versus "after the last occurrence"

The label `'한국어:'` cannot overlap itself (it has no nonempty proper
border), so Python's left-to-right non-overlapping `split` semantics and
the "last occurrence" description coincide. -/

theorem occurs_mono_suffix {sep t l : List Char} (hsuf : t <:+ l)
    (h : occurs sep t = true) : occurs sep l = true := by
  rcases hsuf with ⟨s, rfl⟩
  rcases occurs_iff_exists_drop.mp h with ⟨k, hk⟩
  refine occurs_iff_exists_drop.mpr ⟨s.length + k, ?_⟩
  have hdrop : (s ++ t).drop (s.length + k) = t.drop k := by
    rw [← List.drop_drop, List.drop_left]
  rwa [hdrop]

theorem pySplit_cons (sep : List Char) (c : Char) (rest : List Char) :
    pySplit sep (c :: rest) =
      if sep.isPrefixOf (c :: rest) then
        [] :: pySplit sep (rest.drop (sep.length - 1))
      else
        match pySplit sep rest with
        | [] => [[c]]
        | p :: ps => (c :: p) :: ps := by
  rw [pySplit.eq_def]

theorem pySplit_ne_nil (sep l : List Char) : pySplit sep l ≠ [] := by
  cases l with
  | nil => simp [pySplit]
  | cons c rest =>
    rw [pySplit_cons]
    by_cases hp : sep.isPrefixOf (c :: rest) = true
    · rw [if_pos hp]
      exact List.cons_ne_nil _ _
    · rw [if_neg hp]
      rcases hw : pySplit sep rest with _ | ⟨p, ps⟩
      · exact List.cons_ne_nil _ _
      · exact List.cons_ne_nil _ _

theorem pySplit_of_not_occurs {sep : List Char} : ∀ {l : List Char},
    occurs sep l = false → pySplit sep l = [l] := by
  intro l
  induction l with
  | nil => intro _; simp [pySplit]
  | cons c rest ih =>
    intro h
    have hocc : occurs sep (c :: rest) = (sep.isPrefixOf (c :: rest) || occurs sep rest) :=
      rfl
    rw [hocc] at h
    rcases Bool.or_eq_false_iff.mp h with ⟨h1, h2⟩
    rw [pySplit_cons, if_neg (by rw [h1]; exact Bool.false_ne_true), ih h2]

theorem pySplitLast_of_not_occurs {sep l : List Char} (h : occurs sep l = false) :
    pySplitLast sep l = l := by
  unfold pySplitLast
  rw [pySplit_of_not_occurs h]
  rfl

theorem two_le_length_pySplit {sep : List Char} (hsep : sep ≠ []) : ∀ {l : List Char},
    occurs sep l = true → 2 ≤ (pySplit sep l).length := by
  intro l
  induction l with
  | nil =>
    intro h
    exfalso
    cases sep with
    | nil => exact hsep rfl
    | cons a as =>
      rw [show occurs (a :: as) [] = false from rfl] at h
      cases h
  | cons c rest ih =>
    intro h
    rw [pySplit_cons]
    by_cases hp : sep.isPrefixOf (c :: rest) = true
    · rw [if_pos hp]
      have hne := pySplit_ne_nil sep (rest.drop (sep.length - 1))
      have hlen : 1 ≤ (pySplit sep (rest.drop (sep.length - 1))).length :=
        List.length_pos.mpr hne
      simp only [List.length_cons]
      omega
    · rw [if_neg hp]
      have hocc : occurs sep (c :: rest) = (sep.isPrefixOf (c :: rest) || occurs sep rest) :=
        rfl
      rw [hocc] at h
      rcases Bool.or_eq_true_iff.mp h with hx | hx
      · exact absurd hx hp
      · have h2 := ih hx
        rcases hw : pySplit sep rest with _ | ⟨p, ps⟩
        · rw [hw] at h2; simp at h2
        · rw [hw] at h2
          change 2 ≤ ((c :: p) :: ps).length
          simp only [List.length_cons] at h2 ⊢
          omega

theorem getLastD_ne_nil {α : Type} {l : List α} (h : l ≠ []) (d d' : α) :
    l.getLastD d = l.getLastD d' := by
  rw [List.getLastD_eq_getLast?, List.getLastD_eq_getLast?,
    List.getLast?_eq_getLast l h]
  rfl

theorem pySplitLast_cons {sep : List Char} (hsep : sep ≠ []) (c : Char) (rest : List Char) :
    pySplitLast sep (c :: rest) =
      if sep.isPrefixOf (c :: rest) then pySplitLast sep (rest.drop (sep.length - 1))
      else if occurs sep rest then pySplitLast sep rest
      else c :: rest := by
  unfold pySplitLast
  rw [pySplit_cons]
  by_cases hp : sep.isPrefixOf (c :: rest) = true
  · rw [if_pos hp, if_pos hp]
    rcases hw : pySplit sep (rest.drop (sep.length - 1)) with _ | ⟨p, ps⟩
    · exact absurd hw (pySplit_ne_nil sep _)
    · rw [List.getLastD_cons]
  · rw [if_neg hp, if_neg hp]
    by_cases ho : occurs sep rest = true
    · rw [if_pos ho]
      have h2 := two_le_length_pySplit hsep ho
      rcases hw : pySplit sep rest with _ | ⟨p, ps⟩
      · rw [hw] at h2; simp at h2
      · cases ps with
        | nil => rw [hw] at h2; simp at h2
        | cons q qs =>
          change ((c :: p) :: q :: qs).getLastD [] = (p :: q :: qs).getLastD []
          calc ((c :: p) :: q :: qs).getLastD [] = (q :: qs).getLastD (c :: p) :=
                List.getLastD_cons _ _ _
            _ = (q :: qs).getLastD p := getLastD_ne_nil (List.cons_ne_nil _ _) _ _
            _ = (p :: q :: qs).getLastD [] := (List.getLastD_cons _ _ _).symm
    · have ho' : occurs sep rest = false := by
        cases hx : occurs sep rest
        · rfl
        · exact absurd hx ho
      rw [if_neg ho, pySplit_of_not_occurs ho']
      rfl

theorem afterLast_cons (sep : List Char) (c : Char) (rest : List Char) :
    afterLast sep (c :: rest) =
      if occurs sep rest then afterLast sep rest
      else if sep.isPrefixOf (c :: rest) then (c :: rest).drop sep.length
      else c :: rest := by
  rw [afterLast.eq_def]

theorem afterLast_suffix_absorb {sep t : List Char} (hot : occurs sep t = true) :
    ∀ {l : List Char}, t <:+ l → afterLast sep l = afterLast sep t := by
  intro l
  induction l with
  | nil =>
    intro hsuf
    rw [List.suffix_nil.mp hsuf]
  | cons c rest ih =>
    intro hsuf
    rcases List.suffix_cons_iff.mp hsuf with h | h
    · rw [h]
    · have horest : occurs sep rest = true := occurs_mono_suffix h hot
      rw [afterLast_cons, if_pos horest]
      exact ih h

theorem not_occurs_afterLast {sep : List Char} (hsep : sep ≠ []) : ∀ {l : List Char},
    occurs sep l = true → occurs sep (afterLast sep l) = false := by
  intro l
  induction l with
  | nil =>
    intro h
    exfalso
    cases sep with
    | nil => exact hsep rfl
    | cons a as =>
      rw [show occurs (a :: as) [] = false from rfl] at h
      cases h
  | cons c rest ih =>
    intro h
    by_cases ho : occurs sep rest = true
    · rw [afterLast_cons, if_pos ho]
      exact ih ho
    · have ho' : occurs sep rest = false := by
        cases hx : occurs sep rest
        · rfl
        · exact absurd hx ho
      have hp : sep.isPrefixOf (c :: rest) = true := by
        have hocc : occurs sep (c :: rest) = (sep.isPrefixOf (c :: rest) || occurs sep rest) :=
          rfl
        rw [hocc] at h
        rcases Bool.or_eq_true_iff.mp h with hx | hx
        · exact hx
        · rw [hx] at ho'; cases ho'
      rw [afterLast_cons, if_neg (by rw [ho']; exact Bool.false_ne_true), if_pos hp]
      cases hoc2 : occurs sep ((c :: rest).drop sep.length)
      · rfl
      · exfalso
        have hrest : occurs sep rest = true := by
          cases sep with
          | nil => exact absurd rfl hsep
          | cons a as =>
            have hdrop : (c :: rest).drop (a :: as).length = rest.drop as.length := by
              simp [List.drop_succ_cons]
            rw [hdrop] at hoc2
            exact occurs_mono_suffix (List.drop_suffix _ _) hoc2
        rw [hrest] at ho'
        cases ho'

/-- `sep` has no nonempty proper border: no strictly-later match can start
inside a match.  Holds for the label `'한국어:'`. -/
def overlapFree (sep : List Char) : Prop :=
  ∀ i < sep.length, 0 < i → (sep.drop i).isPrefixOf sep = false

theorem label_overlapFree : overlapFree LABEL := by
  unfold overlapFree
  decide

theorem prefix_drop_overlapFree {sep l : List Char} (hov : overlapFree sep)
    (hpre : sep.isPrefixOf l = true) {i : Nat} (h0 : 0 < i) (hi : i < sep.length) :
    sep.isPrefixOf (l.drop i) = false := by
  cases hq : sep.isPrefixOf (l.drop i)
  · rfl
  · exfalso
    have hp : sep <+: l := List.isPrefixOf_iff_prefix.mp hpre
    have hq' : sep <+: l.drop i := List.isPrefixOf_iff_prefix.mp hq
    rcases hp with ⟨m, rfl⟩
    have hdrop : (sep ++ m).drop i = sep.drop i ++ m :=
      List.drop_append_of_le_length (le_of_lt hi)
    rw [hdrop] at hq'
    rcases hq' with ⟨u, hu⟩
    have hlen : (sep.drop i).length = sep.length - i := List.length_drop i sep
    have htake : (sep ++ u).take (sep.length - i) = sep.take (sep.length - i) :=
      List.take_append_of_le_length (by omega)
    have htake2 : (sep.drop i ++ m).take (sep.length - i) = sep.drop i := by
      rw [← hlen]
      exact List.take_left _ _
    have hborder : sep.take (sep.length - i) = sep.drop i := by
      rw [← htake, hu, htake2]
    have hpref : (sep.drop i).isPrefixOf sep = true := by
      rw [List.isPrefixOf_iff_prefix, ← hborder]
      exact List.take_prefix _ _
    rw [hov i hi h0] at hpref
    cases hpref

theorem occurs_drop_of_prefix {sep : List Char} (hov : overlapFree sep)
    {c : Char} {rest : List Char} (hpre : sep.isPrefixOf (c :: rest) = true)
    (ho : occurs sep rest = true) :
    occurs sep ((c :: rest).drop sep.length) = true := by
  rcases occurs_iff_exists_drop.mp ho with ⟨k, hk⟩
  have hk1 : sep.isPrefixOf ((c :: rest).drop (k + 1)) = true := by
    rwa [List.drop_succ_cons]
  by_cases hlt : k + 1 < sep.length
  · have hfalse := prefix_drop_overlapFree hov hpre (Nat.succ_pos k) hlt
    rw [hk1] at hfalse
    cases hfalse
  · refine occurs_iff_exists_drop.mpr ⟨k + 1 - sep.length, ?_⟩
    have hdd : ((c :: rest).drop sep.length).drop (k + 1 - sep.length) =
        (c :: rest).drop (k + 1) := by
      rw [List.drop_drop]
      congr 1
      omega
    rw [hdd]
    exact hk1

/-- For a separator with no self-overlap, Python's `split(sep)[-1]` is the
substring strictly after the last occurrence of `sep`. -/
theorem pySplitLast_eq_afterLast {sep : List Char} (hov : overlapFree sep)
    (hsep : sep ≠ []) : ∀ l : List Char,
    occurs sep l = true → pySplitLast sep l = afterLast sep l := by
  have hsl : 1 ≤ sep.length := by
    cases sep with
    | nil => exact absurd rfl hsep
    | cons a as => simp
  have H : ∀ n, ∀ l : List Char, l.length ≤ n →
      occurs sep l = true → pySplitLast sep l = afterLast sep l := by
    intro n
    induction n with
    | zero =>
      intro l hl h
      cases l with
      | nil =>
        exfalso
        cases sep with
        | nil => exact hsep rfl
        | cons a as =>
          rw [show occurs (a :: as) [] = false from rfl] at h
          cases h
      | cons c rest => simp at hl
    | succ n ihn =>
      intro l hl h
      cases l with
      | nil =>
        exfalso
        cases sep with
        | nil => exact hsep rfl
        | cons a as =>
          rw [show occurs (a :: as) [] = false from rfl] at h
          cases h
      | cons c rest =>
        have hdropeq : rest.drop (sep.length - 1) = (c :: rest).drop sep.length := by
          cases sep with
          | nil => exact absurd rfl hsep
          | cons a as => simp [List.drop_succ_cons]
        rw [pySplitLast_cons hsep, afterLast_cons]
        by_cases hp : sep.isPrefixOf (c :: rest) = true
        · rw [if_pos hp]
          by_cases ho : occurs sep rest = true
          · rw [if_pos ho]
            have hod : occurs sep ((c :: rest).drop sep.length) = true :=
              occurs_drop_of_prefix hov hp ho
            have hlen : ((c :: rest).drop sep.length).length ≤ n := by
              rw [List.length_drop]
              simp only [List.length_cons] at hl ⊢
              omega
            rw [hdropeq, ihn _ hlen hod]
            have hsuf : (c :: rest).drop sep.length <:+ rest := by
              rw [← hdropeq]
              exact List.drop_suffix _ _
            exact (afterLast_suffix_absorb hod hsuf).symm
          · have ho' : occurs sep rest = false := by
              cases hx : occurs sep rest
              · rfl
              · exact absurd hx ho
            rw [if_neg (by rw [ho']; exact Bool.false_ne_true), if_pos hp]
            have hnone : occurs sep (rest.drop (sep.length - 1)) = false := by
              cases hx : occurs sep (rest.drop (sep.length - 1))
              · rfl
              · exfalso
                have := occurs_mono_suffix (List.drop_suffix _ _) hx
                rw [this] at ho'
                cases ho'
            rw [pySplitLast_of_not_occurs hnone, hdropeq]
        · rw [if_neg hp]
          have hocc : occurs sep (c :: rest) = (sep.isPrefixOf (c :: rest) || occurs sep rest) :=
            rfl
          rw [hocc] at h
          rcases Bool.or_eq_true_iff.mp h with hx | hx
          · exact absurd hx hp
          · rw [if_pos hx, if_pos hx]
            refine ihn rest ?_ hx
            simp only [List.length_cons] at hl
            omega
  exact fun l h => H l.length l (le_refl _) h

/-! ## The claims -/

/-- C1: for every inbound translation request, the caller receives either a
non-empty, fully sanitized result or the uniform HTTP-500 error: every
outcome of `translate` is either `failure 500`, or a `success` whose text
is the sanitizer applied to the backend's returned raw text, is non-empty
(an empty sanitized text instead yields `failure 500`), and satisfies the
sanitization invariant. -/
theorem claim_C1 : ∀ (req : TranslationRequest) (reply : BackendReply),
    translate req reply = .failure 500 ∨
      ∃ raw m, call_ollama_api reply = .ok raw ∧
        translate req reply = .success (clean_translation raw) m ∧
        clean_translation raw ≠ [] ∧ sanitized (clean_translation raw) := by
  intro req reply
  cases reply with
  | transportError => exact Or.inl rfl
  | http2xx body =>
    cases body with
    | none => exact Or.inl rfl
    | some r =>
      by_cases hr : r = []
      · subst hr
        exact Or.inl rfl
      · have hcall : call_ollama_api (.http2xx (some r)) = .ok (pyStrip r) := by
          simp [call_ollama_api, hr]
        by_cases hc : clean_translation (pyStrip r) = []
        · exact Or.inl (by simp [translate, hcall, hc])
        · cases hm : req.model with
          | none => exact Or.inl (by simp [translate, hcall, hc, hm])
          | some m =>
            exact Or.inr ⟨pyStrip r, m, hcall, by simp [translate, hcall, hc, hm],
              hc, sanitized_clean _⟩

/-- C2, counterexample: the sanitizer is not idempotent.  On `"안x 안"` the
Latin letter is removed only after the duplicate-halves check, so the
output `"안 안"` consists of two identical tokens, and a second application
collapses it to `"안"`. -/
theorem claim_C2_counterexample :
    ¬ (clean_translation (clean_translation (String.data "안x 안")) =
        clean_translation (String.data "안x 안")) := by
  decide

/-- C2, amended: the sanitizer is idempotent on every input whose sanitized
output does not itself consist of two identical token halves (equivalently,
on which the duplicate-halves rule cannot fire again). -/
theorem claim_C2_amended (s : List Char) (h : ¬ dupFires (clean_translation s)) :
    clean_translation (clean_translation s) = clean_translation s :=
  clean_translation_sanitized_fix (sanitized_clean s) h

/-- C2, witness: the amended idempotence at the concrete input `"안녕하세요"`. -/
theorem claim_C2_witness :
    ¬ dupFires (clean_translation (String.data "안녕하세요")) ∧
      clean_translation (clean_translation (String.data "안녕하세요")) =
        clean_translation (String.data "안녕하세요") :=
  ⟨by decide, claim_C2_amended _ (by decide)⟩

/-- C3: for every input, the output of `clean_translation` contains only
Hangul-syllable characters and single interior spaces, with no leading or
trailing whitespace (the empty string satisfies this vacuously). -/
theorem claim_C3 (s : List Char) : sanitized (clean_translation s) :=
  sanitized_clean s

/-- C4: on a 2xx backend reply whose parsed body lacks a usable `response`
field or whose field is the empty string, `call_ollama_api` fails with the
(uniform, HTTP-500) empty-backend-response error rather than returning a
value. -/
theorem claim_C4 (body : Option (List Char)) (h : body = none ∨ body = some []) :
    call_ollama_api (.http2xx body) = .error 500 := by
  rcases h with h | h <;> subst h <;> simp [call_ollama_api]

/-- C4, witness: a 2xx reply with the `response` field absent. -/
theorem claim_C4_witness : call_ollama_api (.http2xx none) = .error 500 :=
  claim_C4 none (Or.inl rfl)

/-- C5: at the duplicate-halves stage (whose input, inside the sanitizer,
is always the stripped first line, hence `pyStrip t = t`): if the token
count is even and the first half of tokens equals the second half, only the
first half is kept (joined by single spaces); if the token count is odd, or
at most one, or the halves differ, the text passes through unchanged. -/
theorem claim_C5 (t : List Char) (hstage : pyStrip t = t) :
    (((pyWords t).length % 2 = 0 ∧
        (pyWords t).take ((pyWords t).length / 2) =
          (pyWords t).drop ((pyWords t).length / 2)) →
      dupHalvesStage t =
        List.intercalate [' '] ((pyWords t).take ((pyWords t).length / 2))) ∧
    (((pyWords t).length % 2 = 1 ∨ (pyWords t).length ≤ 1 ∨
        (pyWords t).take ((pyWords t).length / 2) ≠
          (pyWords t).drop ((pyWords t).length / 2)) →
      dupHalvesStage t = t) := by
  constructor
  · rintro ⟨heven, heq⟩
    by_cases h1 : 1 < (pyWords t).length
    · unfold dupHalvesStage
      rw [if_pos h1, if_pos heq]
    · have hlen : (pyWords t).length = 0 := by omega
      have hw : pyWords t = [] := List.length_eq_zero.mp hlen
      have ht : t = [] := eq_nil_of_stripped_all_space hstage hw
      subst ht
      decide
  · intro hcase
    apply dupHalvesStage_eq_of_not_fires
    rintro ⟨h1, heq⟩
    rcases hcase with hodd | hle | hne
    · have hlen := congrArg List.length heq
      rw [List.length_take, List.length_drop] at hlen
      omega
    · omega
    · exact hne heq

/-- C5, witness: on the stripped text `"안 안"` (two identical tokens) the
stage keeps exactly the first half. -/
theorem claim_C5_witness :
    pyStrip (String.data "안 안") = String.data "안 안" ∧
      dupHalvesStage (String.data "안 안") =
        List.intercalate [' ']
          ((pyWords (String.data "안 안")).take
            ((pyWords (String.data "안 안")).length / 2)) :=
  ⟨by decide, (claim_C5 _ (by decide)).1 (by decide)⟩

/-- C6: for every raw backend output containing the translation label
`'한국어:'`, the sanitizer's output equals the sanitizer applied to the
substring strictly after the label's last occurrence. -/
theorem claim_C6 (s : List Char) (h : occurs LABEL s = true) :
    clean_translation s = clean_translation (afterLast LABEL s) := by
  have h1 : labelStage s = afterLast LABEL s := by
    unfold labelStage
    rw [if_pos h]
    exact pySplitLast_eq_afterLast label_overlapFree (by decide) s h
  have h2 : labelStage (afterLast LABEL s) = afterLast LABEL s := by
    unfold labelStage
    have hno := not_occurs_afterLast (show LABEL ≠ [] by decide) h
    rw [if_neg (by rw [hno]; exact Bool.false_ne_true)]
  unfold clean_translation
  rw [h1, h2]

/-- C6, witness: the label rule on `"생각 한국어: 안녕하세요"`. -/
theorem claim_C6_witness :
    occurs LABEL (String.data "생각 한국어: 안녕하세요") = true ∧
      clean_translation (String.data "생각 한국어: 안녕하세요") =
        clean_translation (afterLast LABEL (String.data "생각 한국어: 안녕하세요")) :=
  ⟨by decide, claim_C6 _ (by decide)⟩

/-- C7: on every input on which the duplicate-halves condition does not
fire on the extracted (label-split, stripped) first line, the richer
api.py sanitizer and the main.py sanitizer return identical output. -/
theorem claim_C7 (s : List Char) (h : ¬ dupFires (firstLineStage (labelStage s))) :
    clean_translation s = clean_translation_main s := by
  unfold clean_translation clean_translation_main
  rw [dupHalvesStage_eq_of_not_fires h]

/-- C7, witness: the two variants agree on `"안녕하세요"`. -/
theorem claim_C7_witness :
    ¬ dupFires (firstLineStage (labelStage (String.data "안녕하세요"))) ∧
      clean_translation (String.data "안녕하세요") =
        clean_translation_main (String.data "안녕하세요") :=
  ⟨by decide, claim_C7 _ (by decide)⟩

/-- C8: on the concrete input `"안녕(hello)하세요 :)"` the sanitizer
produces exactly `"안녕하세요"`. -/
theorem claim_C8 :
    clean_translation (String.data "안녕(hello)하세요 :)") =
      String.data "안녕하세요" := by
  decide

/-- C9: the sanitizer is a pure, total function on all input strings — it
is defined as a total Lean function `List Char → List Char` with no error
outcome in its type — and the empty string is one of its possible return
values (witnessed by a non-empty input that cleans to empty) rather than a
failure of the function itself. -/
theorem claim_C9 :
    (∀ s : List Char, ∃ r : List Char, clean_translation s = r) ∧
      (∃ s : List Char, s ≠ [] ∧ clean_translation s = []) :=
  ⟨fun s => ⟨clean_translation s, rfl⟩, ⟨String.data "abc", by decide, by decide⟩⟩

/-- C10: the default model name is substituted only when the model field is
absent; an explicit `null` is parsed through as `None` and then every run
of `translate` fails with the uniform HTTP-500 error (never a success, in
particular never one silently using the default model). -/
theorem claim_C10 :
    parseModel .null = none ∧ parseModel .absent = some DEFAULT_MODEL ∧
      (∀ s, parseModel (.given s) = some s) ∧
      (∀ (t : List Char) (reply : BackendReply),
        translate ⟨t, parseModel .null⟩ reply = .failure 500) := by
  refine ⟨rfl, rfl, fun s => rfl, ?_⟩
  intro t reply
  cases reply with
  | transportError => rfl
  | http2xx body =>
    cases body with
    | none => rfl
    | some r =>
      by_cases hr : r = []
      · subst hr
        rfl
      · have hcall : call_ollama_api (.http2xx (some r)) = .ok (pyStrip r) := by
          simp [call_ollama_api, hr]
        by_cases hc : clean_translation (pyStrip r) = []
        · simp [translate, hcall, hc]
        · simp [translate, hcall, hc, parseModel]

end TranslateLLM
